import Mathlib

/-!
Verification of the LetsCollab backend (`src/Backend/index.js`), a
real-time collaborative text server.  The server state consists of the
shared document string, a `Map` from WebSocket connection to user object
(`activeUsersMap`), and an object mapping line indices to the last editor
(`lineEdits`).  Connections are modelled by natural-number identifiers;
the `wss.clients` set is modelled by a list of connections paired with
their `readyState === OPEN` flag.  `Math.random`-driven colour choice is
modelled by passing the random draw as an explicit parameter.
-/

namespace LetsCollab

/-- A user object `{ id, color }` as stored in `activeUsersMap`. -/
structure User where
  id : String
  color : String
deriving DecidableEq, Repr

/-- A line-attribution entry `{ userId, color }` as stored in `lineEdits`. -/
structure Attr where
  userId : String
  color : String
deriving DecidableEq, Repr

/-- The fixed 7-colour palette of `getRandomColor`. -/
def colors : List String :=
  ["#EF4444", "#F97316", "#EAB308", "#22C55E", "#0EA5E9", "#6366F1", "#EC4899"]

/-- The function `getRandomColor`: `colors[Math.floor(Math.random() * colors.length)]`,
with the random draw supplied as a natural number `r` (the index is
`r % colors.length`, always in range, as in the JS code). -/
def getRandomColor (r : Nat) : String :=
  colors.getD (r % colors.length) ""

/-- Connection identifier (an opaque handle for one WebSocket). -/
abbrev Conn := Nat

/-- The type of `activeUsersMap`: a JS `Map` from connection to user, modelled as an
insertion-ordered association list with unique keys maintained by `mapSet`. -/
abbrev UsersMap := List (Conn × User)

/-- Model of `Map.prototype.values()` (insertion order). -/
def mapValues (m : UsersMap) : List User := m.map Prod.snd

/-- Model of `Map.prototype.get`. -/
def mapGet : UsersMap → Conn → Option User
  | [], _ => none
  | (k, v) :: rest, c => if k = c then some v else mapGet rest c

/-- Model of `Map.prototype.set`: replaces the value in place if the key is present
(keeping insertion order), otherwise appends a new entry. -/
def mapSet : UsersMap → Conn → User → UsersMap
  | [], c, u => [(c, u)]
  | (k, v) :: rest, c, u =>
      if k = c then (k, u) :: rest else (k, v) :: mapSet rest c u

/-- Model of `Map.prototype.delete`. -/
def mapDelete : UsersMap → Conn → UsersMap
  | [], _ => []
  | (k, v) :: rest, c =>
      if k = c then mapDelete rest c else (k, v) :: mapDelete rest c

/-- The whole in-memory server state. -/
structure ServerState where
  /-- Field `sharedDocumentContent`, the single shared text blob. -/
  sharedDocumentContent : String
  /-- Field `activeUsersMap`, connection → user. -/
  activeUsersMap : UsersMap
  /-- Field `lineEdits`, line index → last-editor attribution. -/
  lineEdits : Int → Option Attr
  /-- Field modelling `wss.clients` with each client's `readyState === OPEN` flag. -/
  clients : List (Conn × Bool)
deriving Inhabited

/-- The state at process start: empty document, no users, no attribution,
no connections. -/
def initState : ServerState :=
  { sharedDocumentContent := ""
    activeUsersMap := []
    lineEdits := fun _ => none
    clients := [] }

/-- Server → client messages. -/
inductive ServerMsg where
  | documentUpdate (content : String)
  | userListUpdate (users : List User)
  | lineAttributionUpdate (lineEdits : Int → Option Attr)
  | usernameAccepted (userId : String)
  | usernameRejected

/-- One outbound transmission: `connection.send(message)`. -/
inductive Output where
  | send (c : Conn) (m : ServerMsg)

/-- Sending a payload to every client whose `readyState` is `OPEN`
(the body of both broadcast helpers and of the edit broadcast loop). -/
def broadcastTo (clients : List (Conn × Bool)) (m : ServerMsg) : List Output :=
  (clients.filter (fun p => p.2)).map (fun p => Output.send p.1 m)

/-- The helper `broadcastUserList`. -/
def broadcastUserList (st : ServerState) : List Output :=
  broadcastTo st.clients (ServerMsg.userListUpdate (mapValues st.activeUsersMap))

/-- The helper `broadcastLineAttribution`. -/
def broadcastLineAttribution (st : ServerState) : List Output :=
  broadcastTo st.clients (ServerMsg.lineAttributionUpdate st.lineEdits)

/-- Client → server messages, after successful `JSON.parse`.  `other`
covers any unrecognized `type` (the `default` switch arm). -/
inductive ClientMsg where
  | checkUsername (username : String)
  | edit (content : String) (changedLines : List Int) (userId : String)
  | other (t : String)

/-- Model of `String.prototype.trim`: strip leading and trailing whitespace
(written recursively over the character list so that it evaluates by
kernel reduction). -/
def jsTrim (s : String) : String :=
  String.mk (((s.data.dropWhile Char.isWhitespace).reverse.dropWhile
    Char.isWhitespace).reverse)

/-- The `checkUsername` arm: trim, reject when empty or taken, otherwise
store the user, reply `usernameAccepted` and broadcast roster and
attribution.  `r` is the random draw consumed by `getRandomColor`. -/
def handleCheckUsername (st : ServerState) (ws : Conn) (username : String)
    (r : Nat) : ServerState × List Output :=
  let desired := jsTrim username
  let isTaken := (mapValues st.activeUsersMap).any (fun user => user.id == desired)
  if desired == "" || isTaken then
    (st, [Output.send ws ServerMsg.usernameRejected])
  else
    let user : User := { id := desired, color := getRandomColor r }
    let st' := { st with activeUsersMap := mapSet st.activeUsersMap ws user }
    (st', Output.send ws (ServerMsg.usernameAccepted desired)
            :: (broadcastUserList st' ++ broadcastLineAttribution st'))

/-- The body of the `changedLines.forEach` loop of the `edit` arm: look
the claimed author up in the users map (`Array.from(...).find`) and, if
found, overwrite that line's attribution entry. -/
def editLine (users : List User) (userId : String) (le : Int → Option Attr)
    (lineNum : Int) : Int → Option Attr :=
  match users.find? (fun u => u.id == userId) with
  | some user => fun i =>
      if i = lineNum then some { userId := user.id, color := user.color } else le i
  | none => le

/-- The whole `changedLines.forEach` loop of the `edit` arm. -/
def applyLines (users : List User) (userId : String) (changedLines : List Int)
    (le : Int → Option Attr) : Int → Option Attr :=
  changedLines.foldl (editLine users userId) le

/-- The `edit` arm: replace the document, update attribution for the
reported lines, broadcast the new document and the new attribution. -/
def handleEdit (st : ServerState) (content : String) (changedLines : List Int)
    (userId : String) : ServerState × List Output :=
  let le' := applyLines (mapValues st.activeUsersMap) userId changedLines st.lineEdits
  let st' := { st with sharedDocumentContent := content, lineEdits := le' }
  (st', broadcastTo st'.clients (ServerMsg.documentUpdate st'.sharedDocumentContent)
          ++ broadcastLineAttribution st')

/-- The `switch (parsed.type)` dispatch of the message handler. -/
def handleMessage (st : ServerState) (ws : Conn) (r : Nat) :
    ClientMsg → ServerState × List Output
  | ClientMsg.checkUsername username => handleCheckUsername st ws username r
  | ClientMsg.edit content changedLines userId => handleEdit st content changedLines userId
  | ClientMsg.other _ => (st, [])

/-- The raw `ws.on('message')` callback: `JSON.parse(message)` is the
first statement and is not wrapped in a try/catch, so an unparseable
message (`none`) throws before any state is touched; the exception
propagates out of the handler (`Except.error`). -/
def onMessageRaw (st : ServerState) (ws : Conn) (r : Nat) :
    Option ClientMsg → Except Unit (ServerState × List Output)
  | none => Except.error ()
  | some m => Except.ok (handleMessage st ws r m)

/-- The `ws.on('close')` callback.  The `ws` library removes the socket
from `wss.clients` before user close handlers run; then, if the
connection was named, its entry is deleted and the roster re-broadcast. -/
def handleClose (st : ServerState) (ws : Conn) : ServerState × List Output :=
  let st1 := { st with clients := st.clients.filter (fun p => p.1 != ws) }
  if (mapGet st1.activeUsersMap ws).isSome then
    let st2 := { st1 with activeUsersMap := mapDelete st1.activeUsersMap ws }
    (st2, broadcastUserList st2)
  else
    (st1, [])

/-- The `wss.on('connection')` callback: add the socket to the client
set, send it the current document privately, then broadcast roster and
attribution to everyone. -/
def handleConnect (st : ServerState) (ws : Conn) : ServerState × List Output :=
  let st' := { st with clients := st.clients ++ [(ws, true)] }
  (st', Output.send ws (ServerMsg.documentUpdate st'.sharedDocumentContent)
          :: (broadcastUserList st' ++ broadcastLineAttribution st'))

/-- One externally visible event driving the server. -/
inductive Event where
  | connect (c : Conn)
  | message (c : Conn) (r : Nat) (raw : Option ClientMsg)
  | close (c : Conn)

/-- One step of the server: dispatch an event to its handler.  An
unparseable message throws before any mutation, so the state at the
uncaught exception is the pre-state (and nothing was sent). -/
def step (st : ServerState) : Event → ServerState × List Output
  | Event.connect c => handleConnect st c
  | Event.message c r raw =>
      match onMessageRaw st c r raw with
      | Except.ok p => p
      | Except.error _ => (st, [])
  | Event.close c => handleClose st c

/-- Run the server over a sequence of events, keeping only the state. -/
def run (st : ServerState) (evs : List Event) : ServerState :=
  evs.foldl (fun s e => (step s e).1) st

/-- The identities stored in a users map, in insertion order. -/
def idsList (m : UsersMap) : List String :=
  (mapValues m).map User.id

/-- The identities of all currently-registered participants. -/
def idsOf (st : ServerState) : List String :=
  idsList st.activeUsersMap

/-! ### Basic lemmas about the `Map` model -/

theorem mapValues_nil : mapValues [] = [] := rfl

theorem mapValues_cons (k : Conn) (v : User) (m : UsersMap) :
    mapValues ((k, v) :: m) = v :: mapValues m := rfl

theorem idsList_nil : idsList [] = [] := rfl

theorem idsList_cons (k : Conn) (v : User) (m : UsersMap) :
    idsList ((k, v) :: m) = v.id :: idsList m := rfl

theorem mapGet_mem {m : UsersMap} {c : Conn} {u : User}
    (h : mapGet m c = some u) : u ∈ mapValues m := by
  induction m with
  | nil => simp [mapGet] at h
  | cons kv rest ih =>
      obtain ⟨k, v⟩ := kv
      rw [mapGet] at h
      by_cases hk : k = c
      · simp [hk] at h
        simp [mapValues_cons, h]
      · simp [hk] at h
        simp [mapValues_cons]
        exact Or.inr (ih h)

theorem mem_idsList_of_mem_mapSet {m : UsersMap} {c : Conn} {u : User} {x : String}
    (h : x ∈ idsList (mapSet m c u)) : x = u.id ∨ x ∈ idsList m := by
  induction m with
  | nil => simpa [mapSet, idsList_cons, idsList_nil] using h
  | cons kv rest ih =>
      obtain ⟨k, v⟩ := kv
      rw [mapSet] at h
      by_cases hk : k = c
      · simp only [if_pos hk, idsList_cons] at h
        rcases List.mem_cons.mp h with h | h
        · exact Or.inl h
        · exact Or.inr (by simp [idsList_cons, h])
      · simp only [if_neg hk, idsList_cons] at h
        rcases List.mem_cons.mp h with h | h
        · exact Or.inr (by simp [idsList_cons, h])
        · rcases ih h with h | h
          · exact Or.inl h
          · exact Or.inr (by simp [idsList_cons, h])

theorem nodup_idsList_mapSet {m : UsersMap} {c : Conn} {u : User}
    (hnd : (idsList m).Nodup) (hfree : u.id ∉ idsList m) :
    (idsList (mapSet m c u)).Nodup := by
  induction m with
  | nil => simp [mapSet, idsList_cons, idsList_nil]
  | cons kv rest ih =>
      obtain ⟨k, v⟩ := kv
      rw [idsList_cons] at hnd hfree
      rw [List.nodup_cons] at hnd
      rw [mapSet]
      by_cases hk : k = c
      · simp only [if_pos hk, idsList_cons, List.nodup_cons]
        constructor
        · intro hmem
          exact hfree (List.mem_cons_of_mem _ hmem)
        · exact hnd.2
      · simp only [if_neg hk, idsList_cons, List.nodup_cons]
        constructor
        · intro hmem
          rcases mem_idsList_of_mem_mapSet hmem with h | h
          · exact hfree (by simp [h])
          · exact hnd.1 h
        · exact ih hnd.2 (fun hmem => hfree (List.mem_cons_of_mem _ hmem))

theorem mapDelete_sublist (m : UsersMap) (c : Conn) :
    (mapDelete m c).Sublist m := by
  induction m with
  | nil => simp [mapDelete]
  | cons kv rest ih =>
      obtain ⟨k, v⟩ := kv
      rw [mapDelete]
      by_cases hk : k = c
      · simp only [if_pos hk]
        exact ih.cons _
      · simp only [if_neg hk]
        exact ih.cons₂ _

theorem idsList_mapDelete_sublist (m : UsersMap) (c : Conn) :
    (idsList (mapDelete m c)).Sublist (idsList m) :=
  ((mapDelete_sublist m c).map Prod.snd).map User.id

theorem nodup_idsList_mapDelete {m : UsersMap} {c : Conn}
    (hnd : (idsList m).Nodup) : (idsList (mapDelete m c)).Nodup :=
  hnd.sublist (idsList_mapDelete_sublist m c)

theorem mapGet_mapSet_self (m : UsersMap) (c : Conn) (u : User) :
    mapGet (mapSet m c u) c = some u := by
  induction m with
  | nil => simp [mapSet, mapGet]
  | cons kv rest ih =>
      obtain ⟨k, v⟩ := kv
      rw [mapSet]
      by_cases hk : k = c
      · simp [mapGet, hk]
      · simp [mapGet, hk, ih]

theorem mapGet_mapDelete (m : UsersMap) (c : Conn) :
    mapGet (mapDelete m c) c = none := by
  induction m with
  | nil => simp [mapDelete, mapGet]
  | cons kv rest ih =>
      obtain ⟨k, v⟩ := kv
      rw [mapDelete]
      by_cases hk : k = c
      · simp [hk, ih]
      · simp [mapGet, hk, ih]

theorem not_mem_idsList_mapDelete {m : UsersMap} {c : Conn} {u : User}
    (hnd : (idsList m).Nodup) (hget : mapGet m c = some u) :
    u.id ∉ idsList (mapDelete m c) := by
  induction m with
  | nil => simp [mapGet] at hget
  | cons kv rest ih =>
      obtain ⟨k, v⟩ := kv
      rw [idsList_cons, List.nodup_cons] at hnd
      rw [mapGet] at hget
      rw [mapDelete]
      by_cases hk : k = c
      · simp only [if_pos hk] at hget ⊢
        simp only [Option.some.injEq] at hget
        subst hget
        intro hmem
        exact hnd.1 ((idsList_mapDelete_sublist rest c).mem hmem)
      · simp only [if_neg hk] at hget ⊢
        rw [idsList_cons]
        intro hmem
        rcases List.mem_cons.mp hmem with h | h
        · have hu : u ∈ mapValues rest := mapGet_mem hget
          have : u.id ∈ idsList rest := List.mem_map_of_mem User.id hu
          rw [h] at this
          exact hnd.1 this
        · exact ih hnd.2 hget h

theorem not_mem_idsList_mapSet {m : UsersMap} {c : Conn} {old v : User}
    (hnd : (idsList m).Nodup) (hget : mapGet m c = some old)
    (hne : v.id ≠ old.id) : old.id ∉ idsList (mapSet m c v) := by
  induction m with
  | nil => simp [mapGet] at hget
  | cons kv rest ih =>
      obtain ⟨k, w⟩ := kv
      rw [idsList_cons, List.nodup_cons] at hnd
      rw [mapGet] at hget
      rw [mapSet]
      by_cases hk : k = c
      · simp only [if_pos hk] at hget ⊢
        simp only [Option.some.injEq] at hget
        subst hget
        rw [idsList_cons]
        intro hmem
        rcases List.mem_cons.mp hmem with h | h
        · exact hne h.symm
        · exact hnd.1 h
      · simp only [if_neg hk] at hget ⊢
        rw [idsList_cons]
        intro hmem
        rcases List.mem_cons.mp hmem with h | h
        · have hu : old ∈ mapValues rest := mapGet_mem hget
          have : old.id ∈ idsList rest := List.mem_map_of_mem User.id hu
          rw [h] at this
          exact hnd.1 this
        · exact ih hnd.2 hget h

/-- Keys of a users map, in insertion order. -/
def keysList (m : UsersMap) : List Conn := m.map Prod.fst

theorem keysList_nil : keysList [] = [] := rfl

theorem keysList_cons (k : Conn) (v : User) (m : UsersMap) :
    keysList ((k, v) :: m) = k :: keysList m := rfl

theorem mem_keysList_mapSet {m : UsersMap} {c k : Conn} {u : User}
    (h : k ∈ keysList (mapSet m c u)) : k = c ∨ k ∈ keysList m := by
  induction m with
  | nil => simpa [mapSet, keysList] using h
  | cons kv rest ih =>
      obtain ⟨k0, v⟩ := kv
      rw [mapSet] at h
      by_cases hk : k0 = c
      · rw [if_pos hk, keysList_cons] at h
        rcases List.mem_cons.mp h with h | h
        · exact Or.inl (h.trans hk)
        · exact Or.inr (by rw [keysList_cons]; exact List.mem_cons_of_mem _ h)
      · rw [if_neg hk, keysList_cons] at h
        rcases List.mem_cons.mp h with h | h
        · exact Or.inr (by rw [keysList_cons, h]; exact List.mem_cons_self _ _)
        · rcases ih h with h | h
          · exact Or.inl h
          · exact Or.inr (by rw [keysList_cons]; exact List.mem_cons_of_mem _ h)

theorem nodup_keysList_mapSet {m : UsersMap} {c : Conn} {u : User}
    (hnd : (keysList m).Nodup) : (keysList (mapSet m c u)).Nodup := by
  induction m with
  | nil => simp [mapSet, keysList]
  | cons kv rest ih =>
      obtain ⟨k0, v⟩ := kv
      rw [keysList_cons, List.nodup_cons] at hnd
      rw [mapSet]
      by_cases hk : k0 = c
      · rw [if_pos hk, keysList_cons, List.nodup_cons]
        exact ⟨hnd.1, hnd.2⟩
      · rw [if_neg hk, keysList_cons, List.nodup_cons]
        refine ⟨fun hmem => ?_, ih hnd.2⟩
        rcases mem_keysList_mapSet hmem with h | h
        · exact hk h
        · exact hnd.1 h

/-! ### Lemmas about the attribution fold (`changedLines.forEach`) -/

theorem editLine_of_some {users : List User} {userId : String} {user : User}
    (hfind : users.find? (fun u => u.id == userId) = some user)
    (le : Int → Option Attr) (lineNum : Int) :
    editLine users userId le lineNum =
      fun i => if i = lineNum then some { userId := user.id, color := user.color }
               else le i := by
  simp only [editLine, hfind]

theorem editLine_of_none {users : List User} {userId : String}
    (hfind : users.find? (fun u => u.id == userId) = none)
    (le : Int → Option Attr) (lineNum : Int) :
    editLine users userId le lineNum = le := by
  simp only [editLine, hfind]

theorem editLine_ne {users : List User} {userId : String}
    (le : Int → Option Attr) {lineNum i : Int} (hne : i ≠ lineNum) :
    editLine users userId le lineNum i = le i := by
  rcases hfind : users.find? (fun u => u.id == userId) with _ | user
  · rw [editLine_of_none hfind]
  · rw [editLine_of_some hfind]
    simp [hne]

theorem applyLines_nil (users : List User) (userId : String)
    (le : Int → Option Attr) : applyLines users userId [] le = le := rfl

theorem applyLines_cons (users : List User) (userId : String) (j : Int)
    (cl : List Int) (le : Int → Option Attr) :
    applyLines users userId (j :: cl) le =
      applyLines users userId cl (editLine users userId le j) := rfl

theorem applyLines_of_none {users : List User} {userId : String}
    (hfind : users.find? (fun u => u.id == userId) = none)
    (cl : List Int) (le : Int → Option Attr) :
    applyLines users userId cl le = le := by
  induction cl generalizing le with
  | nil => rfl
  | cons j rest ih =>
      rw [applyLines_cons, editLine_of_none hfind]
      exact ih le

theorem applyLines_of_some {users : List User} {userId : String} {user : User}
    (hfind : users.find? (fun u => u.id == userId) = some user)
    (cl : List Int) (le : Int → Option Attr) (i : Int) :
    applyLines users userId cl le i =
      if i ∈ cl then some { userId := user.id, color := user.color } else le i := by
  induction cl generalizing le with
  | nil => simp [applyLines_nil]
  | cons j rest ih =>
      rw [applyLines_cons, ih]
      by_cases hr : i ∈ rest
      · simp [hr]
      · by_cases hj : i = j
        · rw [editLine_of_some hfind]
          simp [hr, hj]
        · rw [editLine_ne _ hj]
          simp [hr, hj]

theorem applyLines_not_mem {users : List User} {userId : String}
    {cl : List Int} {i : Int} (hni : i ∉ cl) (le : Int → Option Attr) :
    applyLines users userId cl le i = le i := by
  induction cl generalizing le with
  | nil => rfl
  | cons j rest ih =>
      have hij : i ≠ j := fun h => hni (by rw [h]; exact List.mem_cons_self _ _)
      have hir : i ∉ rest := fun h => hni (List.mem_cons_of_mem _ h)
      rw [applyLines_cons, ih hir, editLine_ne _ hij]

/-- In a list of users with pairwise-distinct identities, `find?` on an
identity held by a member returns exactly that member. -/
theorem find?_eq_of_nodup {l : List User} {u : User} {uid : String}
    (hnd : (l.map User.id).Nodup) (hu : u ∈ l) (hid : u.id = uid) :
    l.find? (fun v => v.id == uid) = some u := by
  induction l with
  | nil => cases hu
  | cons v rest ih =>
      rw [List.map_cons, List.nodup_cons] at hnd
      rcases List.mem_cons.mp hu with h | h
      · subst h
        exact List.find?_cons_of_pos _ (by simp [hid])
      · have hvne : v.id ≠ uid := by
          intro hveq
          apply hnd.1
          rw [hveq, ← hid]
          exact List.mem_map_of_mem User.id h
        rw [List.find?_cons_of_neg _ (by simp [hvne])]
        exact ih hnd.2 h

/-! ### Lemmas about the `checkUsername` branches -/

theorem checkUsername_rejected {st : ServerState} {ws : Conn} {username : String}
    (r : Nat)
    (h : jsTrim username = "" ∨ ∃ u ∈ mapValues st.activeUsersMap, u.id = jsTrim username) :
    handleCheckUsername st ws username r =
      (st, [Output.send ws ServerMsg.usernameRejected]) := by
  rcases h with h | ⟨u, hu, hid⟩
  · simp [handleCheckUsername, h]
  · have htaken : (mapValues st.activeUsersMap).any
        (fun user => user.id == jsTrim username) = true :=
      List.any_eq_true.mpr ⟨u, hu, by simp [hid]⟩
    simp [handleCheckUsername, htaken]

/-- The state produced by a successful `checkUsername` claim: the users
map gains (or overwrites) the entry for `ws`. -/
def acceptedState (st : ServerState) (ws : Conn) (desired : String) (r : Nat) :
    ServerState :=
  { st with activeUsersMap :=
      mapSet st.activeUsersMap ws { id := desired, color := getRandomColor r } }

theorem checkUsername_accepted {st : ServerState} {ws : Conn} {username : String}
    (r : Nat) (hne : jsTrim username ≠ "")
    (hfree : ∀ u ∈ mapValues st.activeUsersMap, u.id ≠ jsTrim username) :
    handleCheckUsername st ws username r =
      (acceptedState st ws (jsTrim username) r,
       Output.send ws (ServerMsg.usernameAccepted (jsTrim username))
         :: (broadcastUserList (acceptedState st ws (jsTrim username) r)
             ++ broadcastLineAttribution (acceptedState st ws (jsTrim username) r))) := by
  have hbe : (jsTrim username == "") = false := beq_eq_false_iff_ne.mpr hne
  have htaken : (mapValues st.activeUsersMap).any
      (fun user => user.id == jsTrim username) = false := by
    apply List.any_eq_false.mpr
    intro u hu
    simp [hfree u hu]
  simp [handleCheckUsername, acceptedState, hbe, htaken]

/-! ### Componentwise descriptions of the handlers -/

theorem handleEdit_activeUsersMap (st : ServerState) (content : String)
    (cl : List Int) (uid : String) :
    ((handleEdit st content cl uid).1).activeUsersMap = st.activeUsersMap := rfl

theorem handleEdit_clients (st : ServerState) (content : String)
    (cl : List Int) (uid : String) :
    ((handleEdit st content cl uid).1).clients = st.clients := rfl

theorem handleEdit_doc (st : ServerState) (content : String)
    (cl : List Int) (uid : String) :
    ((handleEdit st content cl uid).1).sharedDocumentContent = content := rfl

theorem handleEdit_lineEdits (st : ServerState) (content : String)
    (cl : List Int) (uid : String) :
    ((handleEdit st content cl uid).1).lineEdits =
      applyLines (mapValues st.activeUsersMap) uid cl st.lineEdits := rfl

theorem handleEdit_outputs (st : ServerState) (content : String)
    (cl : List Int) (uid : String) :
    (handleEdit st content cl uid).2 =
      broadcastTo st.clients (ServerMsg.documentUpdate content)
        ++ broadcastTo st.clients (ServerMsg.lineAttributionUpdate
             (applyLines (mapValues st.activeUsersMap) uid cl st.lineEdits)) := rfl

/-! ### The identity-uniqueness invariant -/

theorem nodup_idsOf_step (st : ServerState) (e : Event)
    (h : (idsOf st).Nodup) : (idsOf (step st e).1).Nodup := by
  cases e with
  | connect c => exact h
  | close c =>
      simp only [step, handleClose]
      split
      · exact nodup_idsList_mapDelete h
      · exact h
  | message c r raw =>
      cases raw with
      | none => exact h
      | some m =>
          cases m with
          | checkUsername un =>
              simp only [step, onMessageRaw, handleMessage]
              by_cases hrej : jsTrim un = ""
                  ∨ ∃ u ∈ mapValues st.activeUsersMap, u.id = jsTrim un
              · rw [checkUsername_rejected r hrej]
                exact h
              · push_neg at hrej
                obtain ⟨hne, hfree⟩ := hrej
                rw [checkUsername_accepted r hne hfree]
                apply nodup_idsList_mapSet h
                intro hmem
                obtain ⟨v, hv, hvid⟩ := List.mem_map.mp hmem
                exact hfree v hv hvid
          | edit content cl uid => exact h
          | other t => exact h

theorem run_nil (st : ServerState) : run st [] = st := rfl

theorem run_cons (st : ServerState) (e : Event) (evs : List Event) :
    run st (e :: evs) = run (step st e).1 evs := rfl

theorem nodup_idsOf_run (evs : List Event) :
    ∀ st : ServerState, (idsOf st).Nodup → (idsOf (run st evs)).Nodup := by
  induction evs with
  | nil => intro st h; exact h
  | cons e rest ih =>
      intro st h
      rw [run_cons]
      exact ih _ (nodup_idsOf_step st e h)

/-- C1: for every sequence of events the server processes (in particular
every sequence of `checkUsername` messages), the identities of the
currently-registered participants are pairwise distinct — at most one
registered connection holds any given post-trim identity — and a claim is
accepted only when no currently-registered participant's identity equals
the trimmed requested name: if some registered participant already holds
it (exact, case-sensitive match), the handler rejects and changes
nothing. -/
theorem c1_identity_uniqueness :
    (∀ evs : List Event, (idsOf (run initState evs)).Nodup)
    ∧ (∀ (st : ServerState) (ws : Conn) (username : String) (r : Nat),
        (∃ u ∈ mapValues st.activeUsersMap, u.id = jsTrim username) →
        handleCheckUsername st ws username r =
          (st, [Output.send ws ServerMsg.usernameRejected])) := by
  constructor
  · intro evs
    exact nodup_idsOf_run evs initState (by simp [idsOf, idsList, initState, mapValues])
  · intro st ws username r h
    exact checkUsername_rejected r (Or.inr h)

/-- A concrete state with one registered participant, used by witnesses. -/
def exSt1 : ServerState :=
  { sharedDocumentContent := ""
    activeUsersMap := [(1, { id := "alice", color := "#EF4444" })]
    lineEdits := fun _ => none
    clients := [(1, true), (2, true)] }

/-- Witness for C1: with "alice" registered, a second claim of "alice"
from another connection is rejected with no state change. -/
theorem c1_identity_uniqueness_witness :
    (∃ u ∈ mapValues exSt1.activeUsersMap, u.id = jsTrim "alice")
    ∧ handleCheckUsername exSt1 2 "alice" 0 =
        (exSt1, [Output.send 2 ServerMsg.usernameRejected]) := by
  have hex : ∃ u ∈ mapValues exSt1.activeUsersMap, u.id = jsTrim "alice" :=
    ⟨{ id := "alice", color := "#EF4444" }, by simp [exSt1, mapValues], by decide⟩
  exact ⟨hex, c1_identity_uniqueness.2 exSt1 2 "alice" 0 hex⟩

/-! ### Broadcast membership helpers -/

theorem send_mem_broadcastTo {clients : List (Conn × Bool)} {p : Conn × Bool}
    (hp : p ∈ clients) (hopen : p.2 = true) (m : ServerMsg) :
    Output.send p.1 m ∈ broadcastTo clients m := by
  unfold broadcastTo
  exact List.mem_map_of_mem _ (List.mem_filter.mpr ⟨hp, hopen⟩)

theorem eq_msg_of_mem_broadcastTo {clients : List (Conn × Bool)} {m : ServerMsg}
    {o : Output} (h : o ∈ broadcastTo clients m) : ∃ c, o = Output.send c m := by
  unfold broadcastTo at h
  obtain ⟨p, _, hp⟩ := List.mem_map.mp h
  exact ⟨p.1, hp.symm⟩

/-- Whatever branch `checkUsername` takes, it never touches `lineEdits`. -/
theorem handleCheckUsername_lineEdits (st : ServerState) (ws : Conn)
    (username : String) (r : Nat) :
    ((handleCheckUsername st ws username r).1).lineEdits = st.lineEdits := by
  simp only [handleCheckUsername]
  split <;> rfl

/-- C3: a `checkUsername` whose username is empty after trimming, or whose
trimmed username equals an identity already held by a currently-registered
participant, produces exactly one private `usernameRejected` reply to the
requesting connection, leaves the entire server state unchanged (registry,
document and attribution included), and sends nothing else — in
particular, no broadcast. -/
theorem c3_rejection_is_pure (st : ServerState) (ws : Conn) (username : String)
    (r : Nat)
    (h : jsTrim username = "" ∨ ∃ u ∈ mapValues st.activeUsersMap, u.id = jsTrim username) :
    handleCheckUsername st ws username r =
      (st, [Output.send ws ServerMsg.usernameRejected]) :=
  checkUsername_rejected r h

/-- Witness for C3: a whitespace-only username is rejected with no state
change and no broadcast. -/
theorem c3_rejection_is_pure_witness :
    (jsTrim "  " = "" ∨ ∃ u ∈ mapValues exSt1.activeUsersMap, u.id = jsTrim "  ")
    ∧ handleCheckUsername exSt1 1 "  " 3 =
        (exSt1, [Output.send 1 ServerMsg.usernameRejected]) :=
  ⟨Or.inl (by decide), c3_rejection_is_pure exSt1 1 "  " 3 (Or.inl (by decide))⟩

/-- C2: after an `edit{content, changedLines, userId}` whose `userId` is
the identity of a currently-registered participant `u` (identities being
pairwise distinct), the shared document equals `content`, a
`documentUpdate` carrying exactly `content` is sent to every open
connection, and for each index `i` in `changedLines` the attribution
entry at `i` equals `{userId, color}` with `u`'s current colour. -/
theorem c2_edit_functional (st : ServerState) (content : String) (cl : List Int)
    (uid : String) (u : User) (hnd : (idsOf st).Nodup)
    (hu : u ∈ mapValues st.activeUsersMap) (hid : u.id = uid) :
    ((handleEdit st content cl uid).1).sharedDocumentContent = content
    ∧ (∀ p ∈ st.clients, p.2 = true →
        Output.send p.1 (ServerMsg.documentUpdate content) ∈ (handleEdit st content cl uid).2)
    ∧ (∀ i ∈ cl, ((handleEdit st content cl uid).1).lineEdits i =
        some { userId := uid, color := u.color }) := by
  have hfind : (mapValues st.activeUsersMap).find? (fun v => v.id == uid) = some u :=
    find?_eq_of_nodup hnd hu hid
  refine ⟨rfl, ?_, ?_⟩
  · intro p hp hopen
    rw [handleEdit_outputs]
    exact List.mem_append_left _ (send_mem_broadcastTo hp hopen _)
  · intro i hi
    rw [handleEdit_lineEdits, applyLines_of_some hfind]
    simp [hi, hid]

/-- Witness for C2: registered "alice" edits lines 0 and 1 of a two-line
document; the document, the broadcast and both attribution entries come
out as claimed. -/
theorem c2_edit_functional_witness :
    ((idsOf exSt1).Nodup
      ∧ ({ id := "alice", color := "#EF4444" } : User) ∈ mapValues exSt1.activeUsersMap
      ∧ ({ id := "alice", color := "#EF4444" } : User).id = "alice")
    ∧ (((handleEdit exSt1 "hello\nworld" [0, 1] "alice").1).sharedDocumentContent = "hello\nworld"
        ∧ (∀ p ∈ exSt1.clients, p.2 = true →
            Output.send p.1 (ServerMsg.documentUpdate "hello\nworld")
              ∈ (handleEdit exSt1 "hello\nworld" [0, 1] "alice").2)
        ∧ (∀ i ∈ ([0, 1] : List Int),
            ((handleEdit exSt1 "hello\nworld" [0, 1] "alice").1).lineEdits i =
              some { userId := "alice", color := "#EF4444" })) :=
  ⟨⟨by decide, by decide, by decide⟩,
   c2_edit_functional exSt1 "hello\nworld" [0, 1] "alice"
     { id := "alice", color := "#EF4444" } (by decide) (by decide) (by decide)⟩

/-- C6: an `edit` leaves every line-attribution entry whose index is not
listed in `changedLines` exactly as it was, independently of the new
content (in particular even when the new content has fewer lines than the
index refers to). -/
theorem c6_attribution_frame (st : ServerState) (content : String)
    (cl : List Int) (uid : String) {i : Int} (hni : i ∉ cl) :
    ((handleEdit st content cl uid).1).lineEdits i = st.lineEdits i := by
  rw [handleEdit_lineEdits]
  exact applyLines_not_mem hni _

/-- A concrete state with a dangling attribution entry at line 5, used by
the C6 witness. -/
def exSt2 : ServerState :=
  { sharedDocumentContent := "a\nb\nc\nd\ne\nf"
    activeUsersMap := [(1, { id := "alice", color := "#EF4444" })]
    lineEdits := fun i => if i = 5 then some { userId := "bob", color := "#F97316" } else none
    clients := [(1, true)] }

/-- Witness for C6: an edit shrinking the document to one line and
reporting lines 0 and 1 leaves the (now dangling) entry for line 5
untouched. -/
theorem c6_attribution_frame_witness :
    ((5 : Int) ∉ ([0, 1] : List Int))
    ∧ ((handleEdit exSt2 "x" [0, 1] "alice").1).lineEdits 5 = exSt2.lineEdits 5 :=
  ⟨by decide, c6_attribution_frame exSt2 "x" [0, 1] "alice" (by decide)⟩

/-- Applying the attribution fold of one and the same edit twice is the
same as applying it once (the written values depend only on the users
map, which the fold does not change). -/
theorem applyLines_idem (users : List User) (uid : String) (cl : List Int)
    (le : Int → Option Attr) :
    applyLines users uid cl (applyLines users uid cl le) =
      applyLines users uid cl le := by
  rcases hfind : users.find? (fun u => u.id == uid) with _ | user
  · rw [applyLines_of_none hfind]
  · funext i
    rw [applyLines_of_some hfind, applyLines_of_some hfind]
    by_cases hi : i ∈ cl <;> simp [hi]

/-- C7: processing the identical `edit` message twice in a row yields the
same final server state as processing it once — the second application is
a no-op on the document and on the attribution mapping (only the
broadcasts are repeated). -/
theorem c7_edit_idempotent (st : ServerState) (content : String)
    (cl : List Int) (uid : String) :
    (handleEdit ((handleEdit st content cl uid).1) content cl uid).1 =
      (handleEdit st content cl uid).1 := by
  simp only [handleEdit]
  rw [applyLines_idem]

/-- C9: an `edit` whose `userId` matches no currently-registered
participant still replaces the document with `content` and still sends
the `documentUpdate` and `lineAttributionUpdate` broadcasts to all open
connections, while the attribution mapping and the registry are left
entirely unchanged, and nothing that is not one of those two broadcast
payloads — in particular no error message — is sent to anyone. -/
theorem c9_unknown_author (st : ServerState) (content : String) (cl : List Int)
    (uid : String) (h : ∀ u ∈ mapValues st.activeUsersMap, u.id ≠ uid) :
    ((handleEdit st content cl uid).1).sharedDocumentContent = content
    ∧ ((handleEdit st content cl uid).1).lineEdits = st.lineEdits
    ∧ ((handleEdit st content cl uid).1).activeUsersMap = st.activeUsersMap
    ∧ (handleEdit st content cl uid).2 =
        broadcastTo st.clients (ServerMsg.documentUpdate content)
          ++ broadcastTo st.clients (ServerMsg.lineAttributionUpdate st.lineEdits)
    ∧ (∀ (c : Conn) (m : ServerMsg),
        Output.send c m ∈ (handleEdit st content cl uid).2 →
          m = ServerMsg.documentUpdate content
          ∨ m = ServerMsg.lineAttributionUpdate st.lineEdits) := by
  have hfind : (mapValues st.activeUsersMap).find? (fun v => v.id == uid) = none :=
    List.find?_eq_none.mpr (fun u hu => by simp [h u hu])
  have hle : applyLines (mapValues st.activeUsersMap) uid cl st.lineEdits
      = st.lineEdits := applyLines_of_none hfind cl st.lineEdits
  refine ⟨rfl, ?_, rfl, ?_, ?_⟩
  · rw [handleEdit_lineEdits, hle]
  · rw [handleEdit_outputs, hle]
  · intro c m hm
    rw [handleEdit_outputs, hle] at hm
    rcases List.mem_append.mp hm with hm | hm
    · obtain ⟨c0, hc0⟩ := eq_msg_of_mem_broadcastTo hm
      cases hc0
      exact Or.inl rfl
    · obtain ⟨c0, hc0⟩ := eq_msg_of_mem_broadcastTo hm
      cases hc0
      exact Or.inr rfl

/-- Witness for C9: "bob" is not registered in `exSt1`, yet the edit
replaces the document, broadcasts, and leaves attribution untouched. -/
theorem c9_unknown_author_witness :
    (∀ u ∈ mapValues exSt1.activeUsersMap, u.id ≠ "bob")
    ∧ (((handleEdit exSt1 "hi" [0] "bob").1).sharedDocumentContent = "hi"
        ∧ ((handleEdit exSt1 "hi" [0] "bob").1).lineEdits = exSt1.lineEdits
        ∧ ((handleEdit exSt1 "hi" [0] "bob").1).activeUsersMap = exSt1.activeUsersMap
        ∧ (handleEdit exSt1 "hi" [0] "bob").2 =
            broadcastTo exSt1.clients (ServerMsg.documentUpdate "hi")
              ++ broadcastTo exSt1.clients (ServerMsg.lineAttributionUpdate exSt1.lineEdits)
        ∧ (∀ (c : Conn) (m : ServerMsg),
            Output.send c m ∈ (handleEdit exSt1 "hi" [0] "bob").2 →
              m = ServerMsg.documentUpdate "hi"
              ∨ m = ServerMsg.lineAttributionUpdate exSt1.lineEdits)) :=
  ⟨by decide, c9_unknown_author exSt1 "hi" [0] "bob" (by decide)⟩

/-- The state produced by closing a named connection: the socket leaves
the client set and its registry entry is deleted. -/
def closedState (st : ServerState) (ws : Conn) : ServerState :=
  { st with clients := st.clients.filter (fun p => p.1 != ws)
            activeUsersMap := mapDelete st.activeUsersMap ws }

theorem handleClose_of_some {st : ServerState} {ws : Conn}
    (hsome : (mapGet st.activeUsersMap ws).isSome = true) :
    handleClose st ws =
      (closedState st ws,
       broadcastTo (st.clients.filter (fun p => p.1 != ws))
         (ServerMsg.userListUpdate (mapValues (mapDelete st.activeUsersMap ws)))) := by
  simp only [handleClose, closedState, broadcastUserList]
  rw [if_pos hsome]

theorem handleClose_of_none {st : ServerState} {ws : Conn}
    (hnone : (mapGet st.activeUsersMap ws).isSome = false) :
    handleClose st ws =
      ({ st with clients := st.clients.filter (fun p => p.1 != ws) }, []) := by
  simp only [handleClose]
  rw [if_neg (by rw [hnone]; exact Bool.false_ne_true)]

/-- C5: closing a named connection removes exactly its participant from
the registry (so its entry no longer resolves and — identities being
pairwise distinct — its identity appears in no subsequent roster), leaves
every attribution entry and the document unchanged, and broadcasts the
updated roster to the remaining open connections; closing an unnamed
connection changes no shared state and broadcasts nothing. -/
theorem c5_close_cleanup (st : ServerState) (ws : Conn) :
    (∀ u : User, mapGet st.activeUsersMap ws = some u →
      ((handleClose st ws).1).activeUsersMap = mapDelete st.activeUsersMap ws
      ∧ mapGet ((handleClose st ws).1).activeUsersMap ws = none
      ∧ ((handleClose st ws).1).lineEdits = st.lineEdits
      ∧ ((handleClose st ws).1).sharedDocumentContent = st.sharedDocumentContent
      ∧ (handleClose st ws).2 =
          broadcastTo (st.clients.filter (fun p => p.1 != ws))
            (ServerMsg.userListUpdate (mapValues (mapDelete st.activeUsersMap ws)))
      ∧ ((idsOf st).Nodup → u.id ∉ idsOf (handleClose st ws).1))
    ∧ (mapGet st.activeUsersMap ws = none →
        ((handleClose st ws).1).activeUsersMap = st.activeUsersMap
        ∧ ((handleClose st ws).1).lineEdits = st.lineEdits
        ∧ ((handleClose st ws).1).sharedDocumentContent = st.sharedDocumentContent
        ∧ (handleClose st ws).2 = []) := by
  constructor
  · intro u hu
    have hsome : (mapGet st.activeUsersMap ws).isSome = true := by
      rw [hu]; rfl
    rw [handleClose_of_some hsome]
    refine ⟨rfl, mapGet_mapDelete _ _, rfl, rfl, rfl, ?_⟩
    intro hnd
    exact not_mem_idsList_mapDelete hnd hu
  · intro hn
    have hnone : (mapGet st.activeUsersMap ws).isSome = false := by
      rw [hn]; rfl
    rw [handleClose_of_none hnone]
    exact ⟨rfl, rfl, rfl, rfl⟩

/-- Witness for C5: closing named connection 1 removes "alice" from the
roster but keeps attribution; closing unnamed connection 9 is a no-op
with no broadcast. -/
theorem c5_close_cleanup_witness :
    (mapGet exSt2.activeUsersMap 1 = some { id := "alice", color := "#EF4444" }
      ∧ ((handleClose exSt2 1).1).lineEdits = exSt2.lineEdits
      ∧ (idsOf exSt2).Nodup
      ∧ "alice" ∉ idsOf (handleClose exSt2 1).1)
    ∧ (mapGet exSt2.activeUsersMap 9 = none
        ∧ ((handleClose exSt2 9).1).activeUsersMap = exSt2.activeUsersMap
        ∧ (handleClose exSt2 9).2 = []) := by
  have h1 := (c5_close_cleanup exSt2 1).1 { id := "alice", color := "#EF4444" } (by decide)
  have h2 := (c5_close_cleanup exSt2 9).2 (by decide)
  exact ⟨⟨by decide, h1.2.2.1, by decide, h1.2.2.2.2.2 (by decide)⟩,
         ⟨by decide, h2.1, h2.2.2.2⟩⟩

/-- C4 counterexample: the claim that an unparseable message is dropped
with the handler completing normally is false — at the initial state an
unparseable message makes the raw message handler end in the uncaught
`JSON.parse` exception (`Except.error`), never in a normal result. -/
theorem c4_counterexample :
    ¬ ∃ p : ServerState × List Output,
        onMessageRaw initState 0 0 none = Except.ok p := by
  intro h
  obtain ⟨p, hp⟩ := h
  simp [onMessageRaw] at hp

/-- C4 (amended): an unparseable incoming message makes the message
handler throw — `JSON.parse` is the first statement and is not wrapped in
a try/catch, so the exception propagates out of the handler instead of
the message being dropped — while no shared state has been mutated when
the exception is raised and nothing has been sent. -/
theorem c4_unparseable_throws (st : ServerState) (ws : Conn) (r : Nat) :
    onMessageRaw st ws r none = Except.error ()
    ∧ (step st (Event.message ws r none)).1 = st
    ∧ (step st (Event.message ws r none)).2 = [] :=
  ⟨rfl, rfl, rfl⟩

/-- Does an event respect the protocol's promise that `changedLines`
holds only non-negative indices? -/
def nonnegEdits : Event → Bool
  | Event.message _ _ (some (ClientMsg.edit _ cl _)) => cl.all (fun i => decide (0 ≤ i))
  | _ => true

theorem nonneg_keys_step (st : ServerState) (e : Event)
    (h : ∀ i : Int, i < 0 → st.lineEdits i = none)
    (he : nonnegEdits e = true) :
    ∀ i : Int, i < 0 → ((step st e).1).lineEdits i = none := by
  cases e with
  | connect c => exact h
  | close c =>
      intro i hi
      rcases hws : (mapGet st.activeUsersMap c).isSome with _ | _
      · rw [step, handleClose_of_none hws]
        exact h i hi
      · rw [step, handleClose_of_some hws]
        exact h i hi
  | message c r raw =>
      cases raw with
      | none => exact h
      | some m =>
          cases m with
          | checkUsername un =>
              intro i hi
              rw [step]
              show ((handleCheckUsername st c un r).1).lineEdits i = none
              rw [handleCheckUsername_lineEdits]
              exact h i hi
          | edit content cl uid =>
              intro i hi
              rw [step]
              show ((handleEdit st content cl uid).1).lineEdits i = none
              rw [handleEdit_lineEdits]
              have hni : i ∉ cl := by
                intro hmem
                have hall := List.all_eq_true.mp he i hmem
                have : (0 : Int) ≤ i := of_decide_eq_true hall
                omega
              rw [applyLines_not_mem hni]
              exact h i hi
          | other t => exact h

theorem nonneg_keys_run (evs : List Event) :
    ∀ st : ServerState, (∀ i : Int, i < 0 → st.lineEdits i = none) →
      (∀ e ∈ evs, nonnegEdits e = true) →
      ∀ i : Int, i < 0 → ((run st evs)).lineEdits i = none := by
  induction evs with
  | nil => intro st h _; exact h
  | cons e rest ih =>
      intro st h hall
      rw [run_cons]
      exact ih _ (nonneg_keys_step st e h (hall e (List.mem_cons_self _ _)))
        (fun e2 he2 => hall e2 (List.mem_cons_of_mem _ he2))

/-- The event sequence of the C8 counterexample: a connection registers
as "alice" and then reports line `-1` as changed. -/
def evsC8 : List Event :=
  [Event.connect 0,
   Event.message 0 0 (some (ClientMsg.checkUsername "alice")),
   Event.message 0 0 (some (ClientMsg.edit "x" [-1] "alice"))]

/-- C8 counterexample: the server never validates `changedLines`, so an
edit from a registered identity reporting line `-1` installs the negative
key `-1` in the attribution mapping — the claim that every present key is
an integer ≥ 0 for every processed sequence is false. -/
theorem c8_counterexample :
    (run initState evsC8).lineEdits (-1) ≠ none ∧ (-1 : Int) < 0 :=
  ⟨by decide, by decide⟩

/-- C8 (amended): every key present in the attribution mapping was
supplied in the `changedLines` of some processed edit; the code does not
enforce non-negativity, but whenever every processed edit only reports
non-negative indices — as the protocol intends — every key present in the
mapping is an integer ≥ 0 (equivalently, every negative index is absent). -/
theorem c8_keys_nonneg (evs : List Event)
    (h : ∀ e ∈ evs, nonnegEdits e = true) :
    ∀ i : Int, i < 0 → (run initState evs).lineEdits i = none :=
  nonneg_keys_run evs initState (fun _ _ => rfl) h

/-- The event sequence of the C8 witness: well-formed edits only. -/
def evsC8w : List Event :=
  [Event.connect 0,
   Event.message 0 2 (some (ClientMsg.checkUsername "alice")),
   Event.message 0 0 (some (ClientMsg.edit "hello\nworld" [0, 1] "alice"))]

/-- Witness for C8 (amended): a run of well-formed events leaves every
negative index absent from the attribution mapping. -/
theorem c8_keys_nonneg_witness :
    (∀ e ∈ evsC8w, nonnegEdits e = true)
    ∧ (∀ i : Int, i < 0 → (run initState evsC8w).lineEdits i = none) :=
  ⟨by decide, c8_keys_nonneg evsC8w (by decide)⟩

/-- C10: a connection `ws` that already holds an identity `old` and sends
`checkUsername` with a different name that is non-empty after trimming
and held by no registered participant is accepted: its registry entry is
overwritten with the new identity and a freshly chosen colour, its
previous identity drops out of the registered identities and becomes
claimable by any connection, and the invariants — pairwise-distinct
identities and one registry entry per connection key — are preserved.
(The hypotheses `jsTrim old.id = old.id` and `old.id ≠ ""` record that
`old.id` itself came from a successful claim, so it is a trimmed
non-empty string.) -/
theorem c10_rename_releases_old_identity (st : ServerState) (ws : Conn)
    (username : String) (r : Nat) (old : User)
    (hold : mapGet st.activeUsersMap ws = some old)
    (hne : jsTrim username ≠ "")
    (hfree : ∀ u ∈ mapValues st.activeUsersMap, u.id ≠ jsTrim username)
    (hnd : (idsOf st).Nodup)
    (hkeys : (keysList st.activeUsersMap).Nodup)
    (holdtrim : jsTrim old.id = old.id) (holdne : old.id ≠ "") :
    ((handleCheckUsername st ws username r).1).activeUsersMap =
        mapSet st.activeUsersMap ws { id := jsTrim username, color := getRandomColor r }
    ∧ mapGet ((handleCheckUsername st ws username r).1).activeUsersMap ws =
        some { id := jsTrim username, color := getRandomColor r }
    ∧ old.id ∉ idsOf (handleCheckUsername st ws username r).1
    ∧ (∀ (ws2 : Conn) (r2 : Nat),
        ((handleCheckUsername ((handleCheckUsername st ws username r).1) ws2 old.id r2).1).activeUsersMap =
          mapSet ((handleCheckUsername st ws username r).1).activeUsersMap ws2
            { id := old.id, color := getRandomColor r2 })
    ∧ (idsOf (handleCheckUsername st ws username r).1).Nodup
    ∧ (keysList ((handleCheckUsername st ws username r).1).activeUsersMap).Nodup := by
  have hacc := @checkUsername_accepted st ws username r hne hfree
  have holdmem : old ∈ mapValues st.activeUsersMap := mapGet_mem hold
  have holdfree : old.id ≠ jsTrim username := hfree old holdmem
  have hfreeIds : jsTrim username ∉ idsList st.activeUsersMap := by
    intro hmem
    obtain ⟨v, hv, hvid⟩ := List.mem_map.mp hmem
    exact hfree v hv hvid
  have hnotold : old.id ∉ idsOf (handleCheckUsername st ws username r).1 := by
    rw [hacc]
    exact not_mem_idsList_mapSet hnd hold (fun hcontra => holdfree hcontra.symm)
  refine ⟨by rw [hacc]; rfl, ?_, hnotold, ?_, ?_, ?_⟩
  · rw [hacc]
    exact mapGet_mapSet_self _ _ _
  · intro ws2 r2
    have hfree2 : ∀ u ∈ mapValues ((handleCheckUsername st ws username r).1).activeUsersMap,
        u.id ≠ jsTrim old.id := by
      rw [holdtrim]
      intro u hu hcontra
      apply hnotold
      rw [← hcontra]
      exact List.mem_map_of_mem User.id hu
    have hne2 : jsTrim old.id ≠ "" := by rw [holdtrim]; exact holdne
    rw [checkUsername_accepted r2 hne2 hfree2]
    rw [acceptedState, holdtrim]
  · rw [hacc]
    exact nodup_idsList_mapSet hnd hfreeIds
  · rw [hacc]
    exact nodup_keysList_mapSet hkeys

/-- A concrete two-participant state for the C10 witness. -/
def exSt3 : ServerState :=
  { sharedDocumentContent := ""
    activeUsersMap := [(1, { id := "alice", color := "#EF4444" }),
                       (2, { id := "bob", color := "#22C55E" })]
    lineEdits := fun _ => none
    clients := [(1, true), (2, true)] }

/-- Witness for C10: connection 1, currently "alice", renames to "carol";
the entry is overwritten, "alice" leaves the roster and both invariants
survive. -/
theorem c10_rename_releases_old_identity_witness :
    (mapGet exSt3.activeUsersMap 1 = some { id := "alice", color := "#EF4444" }
      ∧ jsTrim "carol" ≠ ""
      ∧ (∀ u ∈ mapValues exSt3.activeUsersMap, u.id ≠ jsTrim "carol")
      ∧ (idsOf exSt3).Nodup
      ∧ (keysList exSt3.activeUsersMap).Nodup
      ∧ jsTrim "alice" = "alice" ∧ ("alice" : String) ≠ "")
    ∧ (((handleCheckUsername exSt3 1 "carol" 0).1).activeUsersMap =
          mapSet exSt3.activeUsersMap 1 { id := jsTrim "carol", color := getRandomColor 0 }
        ∧ mapGet ((handleCheckUsername exSt3 1 "carol" 0).1).activeUsersMap 1 =
            some { id := jsTrim "carol", color := getRandomColor 0 }
        ∧ "alice" ∉ idsOf (handleCheckUsername exSt3 1 "carol" 0).1
        ∧ (idsOf (handleCheckUsername exSt3 1 "carol" 0).1).Nodup) := by
  have h := c10_rename_releases_old_identity exSt3 1 "carol" 0
    { id := "alice", color := "#EF4444" } (by decide) (by decide) (by decide)
    (by decide) (by decide) (by decide) (by decide)
  exact ⟨⟨by decide, by decide, by decide, by decide, by decide, by decide, by decide⟩,
         h.1, h.2.1, h.2.2.1, h.2.2.2.2.1⟩

end LetsCollab
